import Mathlib

/-!
Verification of the line-based editing and diff engine of `simple-coder`
(`src/tools/readFile/utils.ts` and `src/tools/editFile/utils.ts`).

Strings are modelled as lists of characters (`Str`).  Each definition below
is a direct shallow embedding of the corresponding TypeScript function;
JavaScript index arithmetic (which may go negative before being clamped)
is carried out in `Int` and converted with `Int.toNat` exactly where the
code converts into an array index.
-/

set_option maxRecDepth 4000

abbrev Str := List Char

/-! ## EOL detection (`detectEol` in `readFile/utils.ts`) -/

inductive EolStyle where
  | LF
  | CRLF
  | CR
deriving DecidableEq, Repr

/-- Number of non-overlapping occurrences of the two-character sequence
CR LF, scanning left to right (the JS regex `\r\n` with the `g` flag). -/
def countCRLF : Str → Nat
  | '\r' :: '\n' :: rest => countCRLF rest + 1
  | _ :: rest => countCRLF rest
  | [] => 0

/-- Helper for `countLF`: the first argument is the previous character. -/
def countLFAux : Option Char → Str → Nat
  | _, [] => 0
  | prev, c :: rest =>
    (if c = '\n' ∧ prev ≠ some '\r' then 1 else 0) + countLFAux (some c) rest

/-- Number of LF characters not preceded by CR (the JS regex with a
negative lookbehind). -/
def countLF (s : Str) : Nat := countLFAux none s

/-- Number of CR characters not followed by LF (the JS regex with a
negative lookahead). -/
def countCR : Str → Nat
  | [] => 0
  | '\r' :: rest => (if rest.head? = some '\n' then 0 else 1) + countCR rest
  | _ :: rest => countCR rest

/-- `detectEol` from `readFile/utils.ts`. -/
def detectEol (content : Str) : EolStyle :=
  let crlf := countCRLF content
  let lf := countLF content
  let cr := countCR content
  if crlf > lf ∧ crlf > cr then .CRLF
  else if cr > lf then .CR
  else .LF

/-! ## Line parsing (`parseLines` in `readFile/utils.ts`) -/

structure LineInfo where
  line : Nat
  text : Str
deriving DecidableEq, Repr

/-- One pass of `content.split(/\r\n|\r|\n/)`: the accumulator holds the
(reversed) characters of the segment currently being read.  The regex
alternation tries `\r\n` first, so a CR immediately followed by LF is a
single separator. -/
def splitEolGo (acc : Str) : Str → List Str
  | [] => [acc.reverse]
  | '\r' :: '\n' :: rest => acc.reverse :: splitEolGo [] rest
  | '\r' :: rest => acc.reverse :: splitEolGo [] rest
  | '\n' :: rest => acc.reverse :: splitEolGo [] rest
  | c :: rest => splitEolGo (c :: acc) rest

/-- `content.split(/\r\n|\r|\n/)` for a string modelled as a `Str`. -/
def splitEol (s : Str) : List Str := splitEolGo [] s

/-- `lines.map((text, index) => ({ line: index + 1, text }))`, written as a
recursion on the list with an explicit first line number. -/
def numberFrom (k : Nat) : List Str → List LineInfo
  | [] => []
  | t :: ts => ⟨k, t⟩ :: numberFrom (k + 1) ts

/-- `parseLines` from `readFile/utils.ts`: empty content gives zero
records, otherwise the split segments numbered from 1. -/
def parseLines (content : Str) : List LineInfo :=
  if content = [] then [] else numberFrom 1 (splitEol content)

/-! ## Edit operations (`editFile/schemas.ts`, `editFile/utils.ts`) -/

inductive EditType where
  | insert
  | delete
  | replace
deriving DecidableEq, Repr

/-- The `text` field of an operation: a single string or an array of
strings (`z.union([z.string(), z.array(z.string())])`). -/
inductive TextArg where
  | str (s : Str)
  | arr (ls : List Str)
deriving DecidableEq, Repr

structure EditOperation where
  type : EditType
  start : Nat
  endLine : Option Nat := none
  text : Option TextArg := none
deriving DecidableEq, Repr

/-- `splitToLines` from `editFile/utils.ts`. -/
def splitToLines : Option TextArg → List Str
  | none => []
  | some (.arr ls) => ls
  | some (.str []) => [[]]
  | some (.str s) => splitEol s

/-- The fixed type priority used for sorting: delete 0, replace 1,
insert 2. -/
def typePriority : EditType → Nat
  | .delete => 0
  | .replace => 1
  | .insert => 2

/-- The comparator of `applyOps` reports `a` strictly before `b`
(`a.start - b.start` negative, or zero start difference and negative
priority difference). -/
def opBefore (a b : EditOperation) : Bool :=
  decide (a.start < b.start) ||
    (decide (a.start = b.start) && decide (typePriority a.type < typePriority b.type))

/-- Insert `x` after every already-placed element that compares strictly
before it; together with `sortOps` this is a stable sort, modelling the
(stable) `Array.prototype.sort` with the comparator above. -/
def insertSorted (x : EditOperation) : List EditOperation → List EditOperation
  | [] => [x]
  | y :: ys => if opBefore y x then y :: insertSorted x ys else x :: y :: ys

/-- Stable sort by ascending `start`, ties broken by `typePriority`. -/
def sortOps : List EditOperation → List EditOperation
  | [] => []
  | x :: xs => insertSorted x (sortOps xs)

/-- `arr.splice(start, delcount, ...items)` on a list: the elements kept
before the splice point, the inserted items, then the survivors. -/
def spliceList (l : List Str) (start delcount : Nat) (items : List Str) : List Str :=
  l.take start ++ items ++ l.drop (start + delcount)

structure ApplyState where
  working : List Str
  totalAdds : Nat
  totalDels : Nat
deriving DecidableEq, Repr

/-- One iteration of the `for (const op of sorted)` loop of `applyOps`.
All index arithmetic is done in `Int`, exactly as JavaScript does, and
clamped with the same `Math.max`/`Math.min` bounds. -/
def applyOne (st : ApplyState) (op : EditOperation) : ApplyState :=
  match op.type with
  | .insert =>
    let insertIndex : Int := max 0 (min (st.working.length : Int) ((op.start : Int) - 1))
    let linesToInsert := splitToLines op.text
    { working := spliceList st.working insertIndex.toNat 0 linesToInsert
      totalAdds := st.totalAdds + linesToInsert.length
      totalDels := st.totalDels }
  | .delete =>
    let startIdx : Int := max 0 (min ((st.working.length : Int) - 1) ((op.start : Int) - 1))
    let endL := op.endLine.getD op.start
    let endIdx : Int := max 0 (min ((st.working.length : Int) - 1) ((endL : Int) - 1))
    let deleteCount : Int := endIdx - startIdx + 1
    if deleteCount ≤ 0 then st
    else
      { working := spliceList st.working startIdx.toNat deleteCount.toNat []
        totalAdds := st.totalAdds
        totalDels := st.totalDels + deleteCount.toNat }
  | .replace =>
    let startIdx : Int := max 0 (min ((st.working.length : Int) - 1) ((op.start : Int) - 1))
    let endL := op.endLine.getD op.start
    let endIdx : Int := max 0 (min ((st.working.length : Int) - 1) ((endL : Int) - 1))
    let deleteCount : Int := endIdx - startIdx + 1
    if deleteCount ≤ 0 then st
    else
      let replacementLines := splitToLines op.text
      { working := spliceList st.working startIdx.toNat deleteCount.toNat replacementLines
        totalAdds := st.totalAdds + replacementLines.length
        totalDels := st.totalDels + deleteCount.toNat }

/-- `applyOps` from `editFile/utils.ts`: sort, fold over the evolving
working sequence, renumber, and report `adds + dels`. -/
def applyOps (originalLines : List LineInfo) (ops : List EditOperation) :
    List LineInfo × Nat :=
  let working := originalLines.map LineInfo.text
  let sorted := sortOps ops
  let final := sorted.foldl applyOne ⟨working, 0, 0⟩
  (numberFrom 1 final.working, final.totalAdds + final.totalDels)

/-! ## Diff generation (`generateDiff` in `editFile/utils.ts`) -/

/-- Length of the longest common subsequence of two suffixes; the entry
`lcs[i][j]` of the table in `generateDiff` is `lcsLen (a.drop i) (b.drop j)`,
by the very recurrence the table is filled with. -/
def lcsLen : List Str → List Str → Nat
  | x :: xs, y :: ys =>
    if x = y then lcsLen xs ys + 1
    else max (lcsLen xs (y :: ys)) (lcsLen (x :: xs) ys)
  | _, _ => 0
termination_by xs ys => xs.length + ys.length
decreasing_by all_goals (simp; try omega)

inductive DOpType where
  | equal
  | del
  | add
deriving DecidableEq, Repr

/-- An entry of the `ops` stream built by the greedy table walk. -/
structure DOp where
  type : DOpType
  aIndex : Nat
  bIndex : Nat
  text : Str
deriving DecidableEq, Repr

/-- The greedy LCS walk of `generateDiff`: emit `equal` while the heads
match, otherwise `del` when `lcs[i+1][j] >= lcs[i][j+1]`, else `add`;
once one side is exhausted the other drains as pure `del`s or `add`s. -/
def walkOps (i j : Nat) : List Str → List Str → List DOp
  | x :: xs, y :: ys =>
    if x = y then ⟨.equal, i, j, x⟩ :: walkOps (i + 1) (j + 1) xs ys
    else if lcsLen xs (y :: ys) ≥ lcsLen (x :: xs) ys then
      ⟨.del, i, j, x⟩ :: walkOps (i + 1) j xs (y :: ys)
    else ⟨.add, i, j, y⟩ :: walkOps i (j + 1) (x :: xs) ys
  | x :: xs, [] => ⟨.del, i, j, x⟩ :: walkOps (i + 1) j xs []
  | [], y :: ys => ⟨.add, i, j, y⟩ :: walkOps i (j + 1) [] ys
  | [], [] => []
termination_by xs ys => xs.length + ys.length
decreasing_by all_goals (simp; try omega)

inductive ChangeType where
  | add
  | del
deriving DecidableEq, Repr

structure Change where
  type : ChangeType
  line : Nat
  text : Str
deriving DecidableEq, Repr

/-- The change-list pass of `generateDiff`: `del` is tagged with the
old-line cursor, `add` with the new-line cursor, `equal` advances both. -/
def buildChanges : List DOp → Nat → Nat → List Change
  | [], _, _ => []
  | op :: rest, oldCursor, newCursor =>
    match op.type with
    | .equal => buildChanges rest (oldCursor + 1) (newCursor + 1)
    | .del => ⟨.del, oldCursor, op.text⟩ :: buildChanges rest (oldCursor + 1) newCursor
    | .add => ⟨.add, newCursor, op.text⟩ :: buildChanges rest oldCursor (newCursor + 1)

structure HunkLine where
  pfx : Char
  text : Str
deriving DecidableEq, Repr

structure Hunk where
  aStart : Nat
  aLen : Nat
  bStart : Nat
  bLen : Nat
  lines : List HunkLine
deriving DecidableEq, Repr

/-- The context window of the hunk assembler. -/
def diffContext : Nat := 3

/-- The mutable locals of the hunk-assembly loop in `generateDiff`. -/
structure HunkState where
  hunks : List Hunk
  hunk : Option Hunk
  preContext : List Str
  pendingEqual : List Str
  aLine : Nat
  bLine : Nat
deriving DecidableEq, Repr

/-- Append one context line to a hunk (the repeated
`lines.push({prefix: " "}); aLen++; bLen++` step). -/
def pushCtx (h : Hunk) (t : Str) : Hunk :=
  { h with lines := h.lines ++ [⟨' ', t⟩], aLen := h.aLen + 1, bLen := h.bLen + 1 }

/-- `openHunk()`: a fresh hunk seeded with the rolling pre-context. -/
def openHunk (st : HunkState) : Hunk :=
  let aStart := max 1 (st.aLine - st.preContext.length)
  let bStart := max 1 (st.bLine - st.preContext.length)
  st.preContext.foldl pushCtx ⟨aStart, 0, bStart, 0, []⟩

/-- `closeHunk()`: emit up to `diffContext` trailing equal lines, push the
hunk, clear the pending buffer. -/
def closeHunk (st : HunkState) : HunkState :=
  match st.hunk with
  | none => st
  | some h =>
    let trail := st.pendingEqual.take diffContext
    { st with hunks := st.hunks ++ [trail.foldl pushCtx h], hunk := none, pendingEqual := [] }

/-- `list.slice(-n)` (the last `n` elements, or all of them). -/
def takeLast (n : Nat) (l : List Str) : List Str := l.drop (l.length - n)

/-- One iteration of the hunk-assembly `for (const op of ops)` loop. -/
def hunkStep (st : HunkState) (op : DOp) : HunkState :=
  match op.type with
  | .equal =>
    match st.hunk with
    | some _ =>
      let st1 := { st with pendingEqual := st.pendingEqual ++ [op.text] }
      if st1.pendingEqual.length > diffContext then
        let st2 := closeHunk st1
        let st3 := { st2 with preContext := takeLast diffContext st2.pendingEqual,
                              pendingEqual := [] }
        { st3 with aLine := st3.aLine + 1, bLine := st3.bLine + 1 }
      else { st1 with aLine := st1.aLine + 1, bLine := st1.bLine + 1 }
    | none =>
      let pre := st.preContext ++ [op.text]
      let pre2 := if pre.length > diffContext then pre.drop 1 else pre
      { st with preContext := pre2, aLine := st.aLine + 1, bLine := st.bLine + 1 }
  | .del =>
    -- getOrOpenHunk(); opening consumes (clears) the pre-context buffer
    let stPre : HunkState :=
      match st.hunk with
      | some _ => st
      | none => { st with preContext := [] }
    let cur := st.hunk.getD (openHunk st)
    -- flush pending equals as interior context, then push the '-' line
    let cur2 := stPre.pendingEqual.foldl pushCtx cur
    let cur3 : Hunk := { cur2 with lines := cur2.lines ++ [⟨'-', op.text⟩],
                                   aLen := cur2.aLen + 1 }
    { stPre with hunk := some cur3, pendingEqual := [], aLine := stPre.aLine + 1 }
  | .add =>
    let stPre : HunkState :=
      match st.hunk with
      | some _ => st
      | none => { st with preContext := [] }
    let cur := st.hunk.getD (openHunk st)
    let cur2 := stPre.pendingEqual.foldl pushCtx cur
    let cur3 : Hunk := { cur2 with lines := cur2.lines ++ [⟨'+', op.text⟩],
                                   bLen := cur2.bLen + 1 }
    { stPre with hunk := some cur3, pendingEqual := [], bLine := stPre.bLine + 1 }

/-- Assemble all hunks from the op stream (fold the loop body, then the
final close that `generateDiff` performs after the loop). -/
def buildHunks (ops : List DOp) : List Hunk :=
  (closeHunk (ops.foldl hunkStep ⟨[], none, [], [], 1, 1⟩)).hunks

/-- Decimal rendering of a natural number (the template-literal
interpolation of the hunk header). -/
def natStr (n : Nat) : Str := (Nat.repr n).data

/-- Render one hunk: its `@@` header line then one line per entry. -/
def renderHunk (h : Hunk) : Str :=
  "\n@@ -".data ++ natStr h.aStart ++ [','] ++ natStr (max 0 h.aLen) ++
    " +".data ++ natStr h.bStart ++ [','] ++ natStr (max 0 h.bLen) ++ " @@".data ++
    (h.lines.map (fun hl => '\n' :: hl.pfx :: hl.text)).flatten

structure Diff where
  unified : Str
  changes : List Change
deriving DecidableEq, Repr

/-! ## Instrumentation: lines actually inserted / actually removed

`applyOps` reports `totalAdds + totalDels`, where a delete/replace always
contributes its clamped span size `deleteCount`.  The definitions below
instead count what a splice really does to the working sequence: the
number of elements genuinely excised is the length of the segment
`(working.drop startIdx).take deleteCount`, which can be smaller than
`deleteCount` when the sequence is empty. -/

/-- Lines actually inserted into the working sequence by one operation. -/
def actualAddedOf (w : List Str) (op : EditOperation) : Nat :=
  match op.type with
  | .insert => (splitToLines op.text).length
  | .delete => 0
  | .replace =>
    let startIdx : Int := max 0 (min ((w.length : Int) - 1) ((op.start : Int) - 1))
    let endL := op.endLine.getD op.start
    let endIdx : Int := max 0 (min ((w.length : Int) - 1) ((endL : Int) - 1))
    let deleteCount : Int := endIdx - startIdx + 1
    if deleteCount ≤ 0 then 0 else (splitToLines op.text).length

/-- Lines actually removed from the working sequence by one operation:
the length of the segment the splice really excises. -/
def actualRemovedOf (w : List Str) (op : EditOperation) : Nat :=
  match op.type with
  | .insert => 0
  | _ =>
    let startIdx : Int := max 0 (min ((w.length : Int) - 1) ((op.start : Int) - 1))
    let endL := op.endLine.getD op.start
    let endIdx : Int := max 0 (min ((w.length : Int) - 1) ((endL : Int) - 1))
    let deleteCount : Int := endIdx - startIdx + 1
    if deleteCount ≤ 0 then 0
    else ((w.drop startIdx.toNat).take deleteCount.toNat).length

/-- Evolve the working sequence exactly as `applyOne` does while
accumulating the actually-inserted plus actually-removed line count. -/
def actualStep (p : List Str × Nat) (op : EditOperation) : List Str × Nat :=
  ((applyOne ⟨p.1, 0, 0⟩ op).working,
    p.2 + actualAddedOf p.1 op + actualRemovedOf p.1 op)

/-- Total number of lines actually inserted into plus actually removed
from the working sequence across all applied operations (applied in the
same sorted order as `applyOps`). -/
def actualTotal (lines : List LineInfo) (ops : List EditOperation) : Nat :=
  ((sortOps ops).foldl actualStep (lines.map LineInfo.text, 0)).2

/-- True when no delete/replace operation is applied while the working
sequence is empty (the degenerate case in which the splice removes
nothing but `deleteCount = 1` is still counted). -/
def noEmptyDelete : List Str → List EditOperation → Bool
  | _, [] => true
  | w, op :: rest =>
    (match op.type with
     | .insert => true
     | _ => decide (w ≠ [])) && noEmptyDelete (applyOne ⟨w, 0, 0⟩ op).working rest

/-- The non-strict order the sorted operation list satisfies: ascending
`start`, ties resolved by the fixed priority delete < replace < insert. -/
def opLe (a b : EditOperation) : Prop :=
  a.start < b.start ∨ (a.start = b.start ∧ typePriority a.type ≤ typePriority b.type)

/-- `generateDiff` from `editFile/utils.ts`. -/
def generateDiff (before after : List LineInfo) (path : Str) : Diff :=
  let a := before.map LineInfo.text
  let b := after.map LineInfo.text
  let ops := walkOps 0 0 a b
  let changes := buildChanges ops 1 1
  let hunks := buildHunks ops
  let header := "--- a/".data ++ path ++ "\n+++ b/".data ++ path
  let unified := hunks.foldl (fun acc h => acc ++ renderHunk h) header
  ⟨if hunks = [] then unified ++ "\n@@ -1,0 +1,0 @@".data else unified, changes⟩

/-- A line text with no CR and no LF characters (every text produced by
the splitter is of this form). -/
def eolFree (t : Str) : Prop := ∀ c ∈ t, c ≠ '\r' ∧ c ≠ '\n'

/-- `texts.join(sep)` (JavaScript array join). -/
def joinSep (sep : Str) : List Str → Str
  | [] => []
  | [t] => t
  | t :: ts => t ++ sep ++ joinSep sep ts

/-- The LF separator string. -/
def lfSep : Str := ['\n']

/-- The CRLF separator string. -/
def crlfSep : Str := ['\r', '\n']

/-- The CR separator string. -/
def crSep : Str := ['\r']

/-- Number of hunk body lines carrying a given prefix character. -/
def countPfx (c : Char) (ls : List HunkLine) : Nat :=
  (ls.filter (fun hl => hl.pfx = c)).length

/-- Consistency of one assembled hunk with its recorded header numbers. -/
def hunkOk (h : Hunk) : Prop :=
  h.aLen = countPfx ' ' h.lines + countPfx '-' h.lines ∧
  h.bLen = countPfx ' ' h.lines + countPfx '+' h.lines ∧
  1 ≤ h.aStart ∧ 1 ≤ h.bStart

/-- The invariant carried through the hunk-assembly loop: every emitted
hunk and the currently open hunk (if any) are consistent. -/
def stateOk (st : HunkState) : Prop :=
  (∀ h ∈ st.hunks, hunkOk h) ∧ (∀ h, st.hunk = some h → hunkOk h)

/-! ## Helper lemmas -/

theorem numberFrom_map_text (k : Nat) (ts : List Str) :
    (numberFrom k ts).map LineInfo.text = ts := by
  induction ts generalizing k with
  | nil => rfl
  | cons t ts ih => simp [numberFrom, ih]

theorem numberFrom_map_line (k : Nat) (ts : List Str) :
    (numberFrom k ts).map LineInfo.line = List.range' k ts.length := by
  induction ts generalizing k with
  | nil => rfl
  | cons t ts ih => simp [numberFrom, ih, List.range']

theorem numberFrom_length (k : Nat) (ts : List Str) :
    (numberFrom k ts).length = ts.length := by
  induction ts generalizing k with
  | nil => rfl
  | cons t ts ih => simp [numberFrom, ih]

theorem numberFrom_of_numbered (l : List LineInfo) (k : Nat)
    (h : l.map LineInfo.line = List.range' k l.length) :
    numberFrom k (l.map LineInfo.text) = l := by
  induction l generalizing k with
  | nil => rfl
  | cons x xs ih =>
    obtain ⟨ln, tx⟩ := x
    simp only [List.map_cons, List.length_cons, List.range', List.cons.injEq] at h
    obtain ⟨h1, h2⟩ := h
    subst h1
    simp [numberFrom, ih _ h2]

/-- Claim C7: applying an empty operation list to a contiguously numbered
line sequence returns the sequence unchanged with `linesChanged = 0`. -/
theorem applyOps_nil (lines : List LineInfo)
    (h : lines.map LineInfo.line = List.range' 1 lines.length) :
    applyOps lines [] = (lines, 0) := by
  simp [applyOps, sortOps, List.foldl, numberFrom_of_numbered lines 1 h]

theorem applyOps_nil_witness :
    applyOps [⟨1, ['a']⟩, ⟨2, ['b']⟩] [] = ([⟨1, ['a']⟩, ⟨2, ['b']⟩], 0) :=
  applyOps_nil _ (by decide)

/-- Claim C8: an insert at `start = N + 1` on an `N`-line sequence appends
the split insertion text after the last line. -/
theorem applyOps_insert_append (lines : List LineInfo) (txt : Option TextArg) :
    (applyOps lines [⟨.insert, lines.length + 1, none, txt⟩]).1
      = numberFrom 1 (lines.map LineInfo.text ++ splitToLines txt) ∧
    ((applyOps lines [⟨.insert, lines.length + 1, none, txt⟩]).1).map LineInfo.text
      = lines.map LineInfo.text ++ splitToLines txt := by
  have hidx :
      (max 0 (min ((lines.map LineInfo.text).length : Int)
        (((lines.length + 1 : Nat) : Int) - 1))).toNat = lines.length := by
    simp
  have hw : spliceList (lines.map LineInfo.text) lines.length 0 (splitToLines txt)
      = lines.map LineInfo.text ++ splitToLines txt := by
    have h1 : List.take lines.length (List.map LineInfo.text lines)
        = List.map LineInfo.text lines :=
      List.take_of_length_le (by simp)
    have h2 : List.drop lines.length (List.map LineInfo.text lines) = [] :=
      List.drop_eq_nil_of_le (by simp)
    simp [spliceList, h1, h2]
  constructor
  · simp [applyOps, sortOps, insertSorted, applyOne, hidx, hw]
  · simp [applyOps, sortOps, insertSorted, applyOne, hidx, hw, numberFrom_map_text]

/-- Claim C9: every sequence produced by `parseLines` or by `applyOps` is
numbered `1..N` contiguously and in order. -/
theorem numbering_invariant :
    (∀ content : Str,
      (parseLines content).map LineInfo.line
        = List.range' 1 (parseLines content).length) ∧
    (∀ (lines : List LineInfo) (ops : List EditOperation),
      ((applyOps lines ops).1).map LineInfo.line
        = List.range' 1 (applyOps lines ops).1.length) := by
  constructor
  · intro content
    by_cases h : content = [] <;>
      simp [parseLines, h, numberFrom_map_line, numberFrom_length]
  · intro lines ops
    simp [applyOps, numberFrom_map_line, numberFrom_length]

/-- Claim C2 (code bug): on `"a\r\nb\nc\r"` all three counts tie at the
maximum (1, 1, 1) and on `"a\nb\r"` the CR and LF counts tie at the
maximum (0, 1, 1); the claimed (and unit-tested) CRLF > CR > LF tie
priority would give CRLF resp. CR, but `detectEol` returns LF for both:
it only returns CRLF when its count is strictly greatest and only
returns CR when the CR count strictly exceeds the LF count. -/
theorem detectEol_tie_evaluation :
    countCRLF ['a', '\r', '\n', 'b', '\n', 'c', '\r'] = 1 ∧
    countLF ['a', '\r', '\n', 'b', '\n', 'c', '\r'] = 1 ∧
    countCR ['a', '\r', '\n', 'b', '\n', 'c', '\r'] = 1 ∧
    detectEol ['a', '\r', '\n', 'b', '\n', 'c', '\r'] = .LF ∧
    countCRLF ['a', '\n', 'b', '\r'] = 0 ∧
    countLF ['a', '\n', 'b', '\r'] = 1 ∧
    countCR ['a', '\n', 'b', '\r'] = 1 ∧
    detectEol ['a', '\n', 'b', '\r'] = .LF := by
  decide

/-- Claim C1 (counterexample): a delete applied to an empty working
sequence removes nothing, yet `applyOps` reports `linesChanged = 1`, so
`linesChanged` does not equal the actually-inserted plus actually-removed
line count on this degenerate input. -/
theorem linesChanged_ne_actual_on_empty :
    (applyOps [] [⟨.delete, 1, none, none⟩]).2 = 1 ∧
    actualTotal [] [⟨.delete, 1, none, none⟩] = 0 ∧
    ¬ ((applyOps [] [⟨.delete, 1, none, none⟩]).2
        = actualTotal [] [⟨.delete, 1, none, none⟩]) := by
  decide

theorem applyOne_split (w : List Str) (a d : Nat) (op : EditOperation) :
    applyOne ⟨w, a, d⟩ op =
      ⟨(applyOne ⟨w, 0, 0⟩ op).working,
        a + (applyOne ⟨w, 0, 0⟩ op).totalAdds,
        d + (applyOne ⟨w, 0, 0⟩ op).totalDels⟩ := by
  cases h : op.type <;> simp only [applyOne, h] <;> (try split) <;> simp

theorem applyOne_counts_eq_actual (w : List Str) (op : EditOperation)
    (h : w ≠ [] ∨ op.type = .insert) :
    (applyOne ⟨w, 0, 0⟩ op).totalAdds = actualAddedOf w op ∧
    (applyOne ⟨w, 0, 0⟩ op).totalDels = actualRemovedOf w op := by
  have hlen : w ≠ [] → 1 ≤ w.length := by
    intro hw
    cases w with
    | nil => exact absurd rfl hw
    | cons x xs => simp
  cases htype : op.type with
  | insert => simp [applyOne, actualAddedOf, actualRemovedOf, htype]
  | delete =>
    have hw : w ≠ [] := h.resolve_right (by simp [htype])
    have h1 := hlen hw
    simp only [applyOne, actualAddedOf, actualRemovedOf, htype]
    split
    · simp
    · rename_i hcount
      refine ⟨by simp, ?_⟩
      simp only [List.length_take, List.length_drop]
      omega
  | replace =>
    have hw : w ≠ [] := h.resolve_right (by simp [htype])
    have h1 := hlen hw
    simp only [applyOne, actualAddedOf, actualRemovedOf, htype]
    split
    · simp
    · rename_i hcount
      refine ⟨by simp, ?_⟩
      simp only [List.length_take, List.length_drop]
      omega

theorem fold_counts_eq_actual (l : List EditOperation) :
    ∀ (w : List Str) (a d t : Nat), noEmptyDelete w l = true →
      (l.foldl applyOne ⟨w, a, d⟩).totalAdds + (l.foldl applyOne ⟨w, a, d⟩).totalDels + t
        = a + d + (l.foldl actualStep (w, t)).2 := by
  induction l with
  | nil => intro w a d t _; simp
  | cons op rest ih =>
    intro w a d t hne
    simp only [noEmptyDelete, Bool.and_eq_true] at hne
    obtain ⟨hcond, hrest⟩ := hne
    have hok : w ≠ [] ∨ op.type = .insert := by
      cases htype : op.type <;> simp [htype] at hcond ⊢
      all_goals simpa using hcond
    obtain ⟨ha, hd⟩ := applyOne_counts_eq_actual w op hok
    simp only [List.foldl_cons]
    rw [applyOne_split]
    have := ih (applyOne ⟨w, 0, 0⟩ op).working (a + (applyOne ⟨w, 0, 0⟩ op).totalAdds)
      (d + (applyOne ⟨w, 0, 0⟩ op).totalDels)
      (t + actualAddedOf w op + actualRemovedOf w op) hrest
    simp only [actualStep] at *
    omega

/-- Claim C1 (amended): provided no delete/replace operation is applied
while the working sequence is empty, `linesChanged` equals the total
number of lines actually inserted plus actually removed across all
applied operations. -/
theorem linesChanged_eq_actual (lines : List LineInfo) (ops : List EditOperation)
    (h : noEmptyDelete (lines.map LineInfo.text) (sortOps ops) = true) :
    (applyOps lines ops).2 = actualTotal lines ops := by
  have := fold_counts_eq_actual (sortOps ops) (lines.map LineInfo.text) 0 0 0 h
  simp only [applyOps, actualTotal]
  omega

theorem linesChanged_eq_actual_witness :
    (applyOps [⟨1, ['a']⟩, ⟨2, ['b']⟩] [⟨.delete, 1, none, none⟩]).2
      = actualTotal [⟨1, ['a']⟩, ⟨2, ['b']⟩] [⟨.delete, 1, none, none⟩] :=
  linesChanged_eq_actual _ _ (by decide)

theorem opLe_of_before {a b : EditOperation} (h : opBefore a b = true) : opLe a b := by
  simp only [opBefore, Bool.or_eq_true, Bool.and_eq_true, decide_eq_true_eq] at h
  unfold opLe
  omega

theorem opLe_of_not_before {a b : EditOperation} (h : opBefore a b = false) : opLe b a := by
  simp only [opBefore, Bool.or_eq_false_iff, Bool.and_eq_false_iff,
    decide_eq_false_iff_not] at h
  unfold opLe
  omega

theorem opLe_trans {a b c : EditOperation} (h1 : opLe a b) (h2 : opLe b c) : opLe a c := by
  unfold opLe at *
  omega

theorem insertSorted_perm (x : EditOperation) (l : List EditOperation) :
    (insertSorted x l).Perm (x :: l) := by
  induction l with
  | nil => simp [insertSorted]
  | cons y ys ih =>
    simp only [insertSorted]
    split
    · exact (ih.cons y).trans (List.Perm.swap x y ys)
    · exact List.Perm.refl _

theorem sortOps_perm (ops : List EditOperation) : (sortOps ops).Perm ops := by
  induction ops with
  | nil => simp [sortOps]
  | cons x xs ih => exact (insertSorted_perm x (sortOps xs)).trans (ih.cons x)

theorem insertSorted_pairwise (x : EditOperation) (l : List EditOperation)
    (h : l.Pairwise opLe) : (insertSorted x l).Pairwise opLe := by
  induction l with
  | nil => simp [insertSorted]
  | cons y ys ih =>
    simp only [List.pairwise_cons] at h
    obtain ⟨hy, hys⟩ := h
    simp only [insertSorted]
    split
    · rename_i hb
      rw [List.pairwise_cons]
      refine ⟨?_, ih hys⟩
      intro z hz
      rcases List.mem_cons.mp ((insertSorted_perm x ys).mem_iff.mp hz) with hzx | hzys
      · exact hzx ▸ opLe_of_before hb
      · exact hy z hzys
    · rename_i hb
      have hxy : opLe x y := opLe_of_not_before (Bool.of_not_eq_true hb)
      rw [List.pairwise_cons]
      refine ⟨?_, List.pairwise_cons.mpr ⟨hy, hys⟩⟩
      intro z hz
      rcases List.mem_cons.mp hz with hzy | hzys
      · exact hzy ▸ hxy
      · exact opLe_trans hxy (hy z hzys)

theorem sortOps_pairwise (ops : List EditOperation) : (sortOps ops).Pairwise opLe := by
  induction ops with
  | nil => simp [sortOps]
  | cons x xs ih => exact insertSorted_pairwise x (sortOps xs) ih

/-- Claim C3: `applyOps` folds `applyOne` over a single evolving working
sequence, visiting the operations in an order that is a permutation of
the input sorted by ascending `start` with ties broken by the priority
delete < replace < insert; in particular a delete and an insert with the
same `start` are applied delete first, whichever order they were given
in, so the inserted lines land after the deletion. -/
theorem applyOps_sorted_sequential :
    (∀ ops : List EditOperation,
      (sortOps ops).Perm ops ∧ (sortOps ops).Pairwise opLe) ∧
    (∀ (lines : List LineInfo) (ops : List EditOperation),
      applyOps lines ops
        = (numberFrom 1
            (((sortOps ops).foldl applyOne ⟨lines.map LineInfo.text, 0, 0⟩).working),
          ((sortOps ops).foldl applyOne ⟨lines.map LineInfo.text, 0, 0⟩).totalAdds
            + ((sortOps ops).foldl applyOne ⟨lines.map LineInfo.text, 0, 0⟩).totalDels)) ∧
    (∀ (lines : List LineInfo) (s : Nat) (e : Option Nat) (txt : Option TextArg),
      sortOps [⟨.insert, s, none, txt⟩, ⟨.delete, s, e, none⟩]
        = [⟨.delete, s, e, none⟩, ⟨.insert, s, none, txt⟩] ∧
      applyOps lines [⟨.insert, s, none, txt⟩, ⟨.delete, s, e, none⟩]
        = applyOps lines [⟨.delete, s, e, none⟩, ⟨.insert, s, none, txt⟩] ∧
      (applyOps lines [⟨.insert, s, none, txt⟩, ⟨.delete, s, e, none⟩]).1
        = numberFrom 1 ((applyOne (applyOne ⟨lines.map LineInfo.text, 0, 0⟩
            ⟨.delete, s, e, none⟩) ⟨.insert, s, none, txt⟩).working)) := by
  refine ⟨fun ops => ⟨sortOps_perm ops, sortOps_pairwise ops⟩, fun lines ops => rfl, ?_⟩
  intro lines s e txt
  have hsort : sortOps [⟨.insert, s, none, txt⟩, ⟨.delete, s, e, none⟩]
      = [⟨.delete, s, e, none⟩, ⟨.insert, s, none, txt⟩] := by
    simp [sortOps, insertSorted, opBefore, typePriority]
  have hsort2 : sortOps [⟨.delete, s, e, none⟩, ⟨.insert, s, none, txt⟩]
      = [⟨.delete, s, e, none⟩, ⟨.insert, s, none, txt⟩] := by
    simp [sortOps, insertSorted, opBefore, typePriority]
  exact ⟨hsort, by simp [applyOps, hsort, hsort2], by simp [applyOps, hsort]⟩

theorem walkOps_self (l : List Str) :
    ∀ (i j : Nat), ∀ op ∈ walkOps i j l l, op.type = .equal := by
  induction l with
  | nil =>
    intro i j op hop
    simp [walkOps] at hop
  | cons x xs ih =>
    intro i j op hop
    simp only [walkOps, if_pos rfl] at hop
    rcases List.mem_cons.mp hop with h | h
    · rw [h]
    · exact ih _ _ op h

theorem buildChanges_equal :
    ∀ (ops : List DOp), (∀ op ∈ ops, op.type = .equal) →
      ∀ oc nc, buildChanges ops oc nc = [] := by
  intro ops
  induction ops with
  | nil => intro _ _ _; rfl
  | cons op rest ih =>
    intro h oc nc
    have hop : op.type = .equal := h op (by simp)
    simp only [buildChanges, hop]
    exact ih (fun o ho => h o (by simp [ho])) _ _

theorem hunkStep_equal_none (st : HunkState) (op : DOp) (h1 : op.type = .equal)
    (h2 : st.hunk = none) :
    (hunkStep st op).hunk = none ∧ (hunkStep st op).hunks = st.hunks := by
  simp [hunkStep, h1, h2]

theorem hunkFold_equal :
    ∀ (ops : List DOp), (∀ op ∈ ops, op.type = .equal) →
      ∀ st : HunkState, st.hunk = none →
        (ops.foldl hunkStep st).hunk = none ∧ (ops.foldl hunkStep st).hunks = st.hunks := by
  intro ops
  induction ops with
  | nil => intro _ st h; exact ⟨h, rfl⟩
  | cons op rest ih =>
    intro h st hst
    have hop : op.type = .equal := h op (by simp)
    obtain ⟨hh1, hh2⟩ := hunkStep_equal_none st op hop hst
    simp only [List.foldl_cons]
    obtain ⟨g1, g2⟩ := ih (fun o ho => h o (by simp [ho])) (hunkStep st op) hh1
    exact ⟨g1, by rw [g2, hh2]⟩

theorem buildHunks_equal (ops : List DOp) (h : ∀ op ∈ ops, op.type = .equal) :
    buildHunks ops = [] := by
  obtain ⟨h1, h2⟩ := hunkFold_equal ops h ⟨[], none, [], [], 1, 1⟩ rfl
  simp [buildHunks, closeHunk, h1, h2]

/-- Claim C4: diffing any sequence against itself yields an empty change
list and a unified text that is exactly the two file-header lines
followed by the synthetic empty hunk header. -/
theorem generateDiff_self (X : List LineInfo) (label : Str) :
    generateDiff X X label
      = ⟨"--- a/".data ++ label ++ "\n+++ b/".data ++ label ++ "\n@@ -1,0 +1,0 @@".data,
         []⟩ := by
  have hops := walkOps_self (X.map LineInfo.text) 0 0
  have hch := buildChanges_equal _ hops 1 1
  have hh := buildHunks_equal _ hops
  simp [generateDiff, hch, hh, List.append_assoc]

/-- Claim C5: on before `["a","b","c"]` and after `["a","x","c"]` the diff
reports exactly the deletion of old line 2 followed by the addition of
new line 2, and assembles a single hunk whose header covers all three
lines on both sides. -/
theorem generateDiff_example (label : Str) :
    (generateDiff [⟨1, ['a']⟩, ⟨2, ['b']⟩, ⟨3, ['c']⟩]
        [⟨1, ['a']⟩, ⟨2, ['x']⟩, ⟨3, ['c']⟩] label).changes
      = [⟨.del, 2, ['b']⟩, ⟨.add, 2, ['x']⟩] ∧
    buildHunks (walkOps 0 0 [['a'], ['b'], ['c']] [['a'], ['x'], ['c']])
      = [⟨1, 3, 1, 3, [⟨' ', ['a']⟩, ⟨'-', ['b']⟩, ⟨'+', ['x']⟩, ⟨' ', ['c']⟩]⟩] ∧
    (generateDiff [⟨1, ['a']⟩, ⟨2, ['b']⟩, ⟨3, ['c']⟩]
        [⟨1, ['a']⟩, ⟨2, ['x']⟩, ⟨3, ['c']⟩] label).unified
      = "--- a/".data ++ label ++ "\n+++ b/".data ++ label
          ++ "\n@@ -1,3 +1,3 @@\n a\n-b\n+x\n c".data := by
  have hwalk : walkOps 0 0 [['a'], ['b'], ['c']] [['a'], ['x'], ['c']]
      = [⟨.equal, 0, 0, ['a']⟩, ⟨.del, 1, 1, ['b']⟩, ⟨.add, 2, 1, ['x']⟩,
          ⟨.equal, 2, 2, ['c']⟩] := by
    simp [walkOps, lcsLen]
  have hh : buildHunks (walkOps 0 0 [['a'], ['b'], ['c']] [['a'], ['x'], ['c']])
      = [⟨1, 3, 1, 3, [⟨' ', ['a']⟩, ⟨'-', ['b']⟩, ⟨'+', ['x']⟩, ⟨' ', ['c']⟩]⟩] := by
    rw [hwalk]; decide
  have hch : buildChanges (walkOps 0 0 [['a'], ['b'], ['c']] [['a'], ['x'], ['c']]) 1 1
      = [⟨.del, 2, ['b']⟩, ⟨.add, 2, ['x']⟩] := by
    rw [hwalk]; decide
  have hr : renderHunk ⟨1, 3, 1, 3, [⟨' ', ['a']⟩, ⟨'-', ['b']⟩, ⟨'+', ['x']⟩, ⟨' ', ['c']⟩]⟩
      = "\n@@ -1,3 +1,3 @@\n a\n-b\n+x\n c".data := by
    decide
  refine ⟨?_, hh, ?_⟩
  · simp [generateDiff, hch]
  · simp [generateDiff, hh, hr, List.append_assoc]

theorem pushCtx_ok {h : Hunk} (t : Str) (hh : hunkOk h) : hunkOk (pushCtx h t) := by
  unfold hunkOk countPfx at hh ⊢
  obtain ⟨h1, h2, h3, h4⟩ := hh
  refine ⟨?_, ?_, by simpa [pushCtx] using h3, by simpa [pushCtx] using h4⟩ <;>
    simp [pushCtx, List.filter_append] <;> omega

theorem foldl_pushCtx_ok (pre : List Str) :
    ∀ {h : Hunk}, hunkOk h → hunkOk (pre.foldl pushCtx h) := by
  induction pre with
  | nil => intro h hh; exact hh
  | cons t ts ih => intro h hh; exact ih (pushCtx_ok t hh)

theorem openHunk_ok (st : HunkState) : hunkOk (openHunk st) := by
  unfold openHunk
  exact foldl_pushCtx_ok _
    ⟨by simp [countPfx], by simp [countPfx], le_max_left 1 _, le_max_left 1 _⟩

theorem closeHunk_ok {st : HunkState} (h : stateOk st) : stateOk (closeHunk st) := by
  obtain ⟨hks, hk, pre, pend, aL, bL⟩ := st
  obtain ⟨hall, hopen⟩ := h
  cases hk with
  | none => exact ⟨hall, hopen⟩
  | some h0 =>
    refine ⟨?_, by simp [closeHunk]⟩
    intro h2 hmem
    simp only [closeHunk, List.mem_append, List.mem_singleton] at hmem
    rcases hmem with hmem | hmem
    · exact hall h2 hmem
    · exact hmem ▸ foldl_pushCtx_ok _ (hopen h0 rfl)

theorem pushDel_ok {h : Hunk} (t : Str) (hh : hunkOk h) :
    hunkOk { h with lines := h.lines ++ [⟨'-', t⟩], aLen := h.aLen + 1 } := by
  unfold hunkOk countPfx at hh ⊢
  obtain ⟨h1, h2, h3, h4⟩ := hh
  refine ⟨?_, ?_, by simpa using h3, by simpa using h4⟩ <;>
    simp [List.filter_append] <;> omega

theorem pushAdd_ok {h : Hunk} (t : Str) (hh : hunkOk h) :
    hunkOk { h with lines := h.lines ++ [⟨'+', t⟩], bLen := h.bLen + 1 } := by
  unfold hunkOk countPfx at hh ⊢
  obtain ⟨h1, h2, h3, h4⟩ := hh
  refine ⟨?_, ?_, by simpa using h3, by simpa using h4⟩ <;>
    simp [List.filter_append] <;> omega

theorem hunkStep_ok {st : HunkState} (op : DOp) (h : stateOk st) :
    stateOk (hunkStep st op) := by
  obtain ⟨hks, hk, pre, pend, aL, bL⟩ := st
  obtain ⟨hall, hopen⟩ := h
  cases htype : op.type with
  | equal =>
    cases hk with
    | some h0 =>
      simp only [hunkStep, htype]
      split
      · refine ⟨?_, ?_⟩
        · intro h2 hmem
          simp only [closeHunk, List.mem_append, List.mem_singleton] at hmem
          rcases hmem with hmem | hmem
          · exact hall h2 hmem
          · exact hmem ▸ foldl_pushCtx_ok _ (hopen h0 rfl)
        · intro h2 hh2
          simp [closeHunk] at hh2
      · exact ⟨hall, fun h2 hh2 => hopen h2 (by simpa using hh2)⟩
    | none =>
      simp only [hunkStep, htype]
      exact ⟨hall, by simp⟩
  | del =>
    cases hk with
    | none =>
      have hcur3 := pushDel_ok op.text
        (foldl_pushCtx_ok pend (openHunk_ok ⟨hks, none, pre, pend, aL, bL⟩))
      simp only [hunkStep, htype]
      refine ⟨hall, ?_⟩
      intro h2 hh2
      simp only [Option.getD_none, Option.some.injEq] at hh2 ⊢
      exact hh2 ▸ hcur3
    | some h0 =>
      have hcur3 := pushDel_ok op.text (foldl_pushCtx_ok pend (hopen h0 rfl))
      simp only [hunkStep, htype]
      refine ⟨hall, ?_⟩
      intro h2 hh2
      simp only [Option.getD_some, Option.some.injEq] at hh2 ⊢
      exact hh2 ▸ hcur3
  | add =>
    cases hk with
    | none =>
      have hcur3 := pushAdd_ok op.text
        (foldl_pushCtx_ok pend (openHunk_ok ⟨hks, none, pre, pend, aL, bL⟩))
      simp only [hunkStep, htype]
      refine ⟨hall, ?_⟩
      intro h2 hh2
      simp only [Option.getD_none, Option.some.injEq] at hh2 ⊢
      exact hh2 ▸ hcur3
    | some h0 =>
      have hcur3 := pushAdd_ok op.text (foldl_pushCtx_ok pend (hopen h0 rfl))
      simp only [hunkStep, htype]
      refine ⟨hall, ?_⟩
      intro h2 hh2
      simp only [Option.getD_some, Option.some.injEq] at hh2 ⊢
      exact hh2 ▸ hcur3

theorem buildHunks_ok (ops : List DOp) : ∀ h ∈ buildHunks ops, hunkOk h := by
  have hfold : ∀ (l : List DOp) (st : HunkState), stateOk st → stateOk (l.foldl hunkStep st) := by
    intro l
    induction l with
    | nil => intro st h; exact h
    | cons op rest ih => intro st h; exact ih _ (hunkStep_ok op h)
  have hinit : stateOk ⟨[], none, [], [], 1, 1⟩ := ⟨by simp, by simp⟩
  exact (closeHunk_ok (hfold ops _ hinit)).1

/-- Claim C10: in every hunk assembled by `generateDiff`, the recorded
`aLen` is the number of context plus deletion lines, the recorded `bLen`
is the number of context plus addition lines, and both start lines are
at least 1, so each rendered header matches the body that follows it. -/
theorem hunk_header_consistent (before after : List LineInfo) (h : Hunk)
    (hmem : h ∈ buildHunks
      (walkOps 0 0 (before.map LineInfo.text) (after.map LineInfo.text))) :
    h.aLen = countPfx ' ' h.lines + countPfx '-' h.lines ∧
    h.bLen = countPfx ' ' h.lines + countPfx '+' h.lines ∧
    1 ≤ h.aStart ∧ 1 ≤ h.bStart :=
  buildHunks_ok _ h hmem

theorem hunk_header_consistent_witness :
    (⟨1, 3, 1, 3, [⟨' ', ['a']⟩, ⟨'-', ['b']⟩, ⟨'+', ['x']⟩, ⟨' ', ['c']⟩]⟩ : Hunk).aLen
        = countPfx ' ' [⟨' ', ['a']⟩, ⟨'-', ['b']⟩, ⟨'+', ['x']⟩, ⟨' ', ['c']⟩]
            + countPfx '-' [⟨' ', ['a']⟩, ⟨'-', ['b']⟩, ⟨'+', ['x']⟩, ⟨' ', ['c']⟩] ∧
    (⟨1, 3, 1, 3, [⟨' ', ['a']⟩, ⟨'-', ['b']⟩, ⟨'+', ['x']⟩, ⟨' ', ['c']⟩]⟩ : Hunk).bLen
        = countPfx ' ' [⟨' ', ['a']⟩, ⟨'-', ['b']⟩, ⟨'+', ['x']⟩, ⟨' ', ['c']⟩]
            + countPfx '+' [⟨' ', ['a']⟩, ⟨'-', ['b']⟩, ⟨'+', ['x']⟩, ⟨' ', ['c']⟩] ∧
    1 ≤ (⟨1, 3, 1, 3, [⟨' ', ['a']⟩, ⟨'-', ['b']⟩, ⟨'+', ['x']⟩, ⟨' ', ['c']⟩]⟩ : Hunk).aStart ∧
    1 ≤ (⟨1, 3, 1, 3, [⟨' ', ['a']⟩, ⟨'-', ['b']⟩, ⟨'+', ['x']⟩, ⟨' ', ['c']⟩]⟩ : Hunk).bStart :=
  hunk_header_consistent [⟨1, ['a']⟩, ⟨2, ['b']⟩, ⟨3, ['c']⟩]
    [⟨1, ['a']⟩, ⟨2, ['x']⟩, ⟨3, ['c']⟩] _
    (by
      simp only [List.map_cons, List.map_nil]
      rw [show walkOps 0 0 [['a'], ['b'], ['c']] [['a'], ['x'], ['c']]
            = [⟨.equal, 0, 0, ['a']⟩, ⟨.del, 1, 1, ['b']⟩, ⟨.add, 2, 1, ['x']⟩,
                ⟨.equal, 2, 2, ['c']⟩] from by simp [walkOps, lcsLen]]
      decide)

theorem splitEolGo_cons_other (acc : Str) (c : Char) (rest : Str)
    (h1 : c ≠ '\r') (h2 : c ≠ '\n') :
    splitEolGo acc (c :: rest) = splitEolGo (c :: acc) rest := by
  simp [splitEolGo, h1, h2]

theorem splitEolGo_cr (acc rest : Str) (h : rest.head? ≠ some '\n') :
    splitEolGo acc ('\r' :: rest) = acc.reverse :: splitEolGo [] rest := by
  cases rest with
  | nil => rfl
  | cons c rest2 =>
    have hc : c ≠ '\n' := by simpa using h
    simp [splitEolGo, hc]

theorem splitEolGo_ne_nil (acc s : Str) : splitEolGo acc s ≠ [] := by
  induction acc, s using splitEolGo.induct <;> simp_all [splitEolGo]

theorem splitEolGo_eolFree : ∀ (acc s : Str),
    (∀ c ∈ acc, c ≠ '\r' ∧ c ≠ '\n') →
    ∀ t ∈ splitEolGo acc s, eolFree t := by
  intro acc s
  induction acc, s using splitEolGo.induct with
  | case1 acc =>
    intro hacc t ht
    simp [splitEolGo] at ht
    subst ht
    intro c hc
    exact hacc c (by simpa using hc)
  | case2 acc rest ih =>
    intro hacc t ht
    simp only [splitEolGo, List.mem_cons] at ht
    rcases ht with ht | ht
    · subst ht; intro c hc; exact hacc c (by simpa using hc)
    · exact ih (by simp) t ht
  | case3 acc rest hno ih =>
    intro hacc t ht
    have hh : rest.head? ≠ some '\n' := by
      cases rest with
      | nil => simp
      | cons c r2 =>
        simp only [List.head?_cons, ne_eq, Option.some.injEq]
        intro hc
        exact hno r2 (by rw [hc])
    rw [splitEolGo_cr acc rest hh] at ht
    rcases List.mem_cons.mp ht with ht | ht
    · subst ht; intro c hc; exact hacc c (by simpa using hc)
    · exact ih (by simp) t ht
  | case4 acc rest ih =>
    intro hacc t ht
    simp only [splitEolGo, List.mem_cons] at ht
    rcases ht with ht | ht
    · subst ht; intro c hc; exact hacc c (by simpa using hc)
    · exact ih (by simp) t ht
  | case5 acc c rest h1 h2 h3 ih =>
    intro hacc t ht
    have hc1 : c ≠ '\r' := fun hh => h2 hh
    have hc2 : c ≠ '\n' := fun hh => h3 hh
    rw [splitEolGo_cons_other acc c rest hc1 hc2] at ht
    refine ih ?_ t ht
    intro d hd
    rcases List.mem_cons.mp hd with hd | hd
    · subst hd; exact ⟨hc1, hc2⟩
    · exact hacc d hd

theorem splitEolGo_append_eolFree : ∀ (t : Str), eolFree t →
    ∀ (acc s : Str), splitEolGo acc (t ++ s) = splitEolGo (t.reverse ++ acc) s := by
  intro t
  induction t with
  | nil => intro _ acc s; simp
  | cons c t2 ih =>
    intro hfree acc s
    have hc := hfree c (by simp)
    rw [List.cons_append, splitEolGo_cons_other acc c (t2 ++ s) hc.1 hc.2]
    rw [ih (fun d hd => hfree d (by simp [hd])) (c :: acc) s]
    simp

theorem splitEolGo_singleton_length : ∀ (acc s t : Str),
    splitEolGo acc s = [t] → acc.length ≤ t.length := by
  intro acc s
  induction acc, s using splitEolGo.induct with
  | case1 acc =>
    intro t ht
    simp only [splitEolGo, List.cons.injEq] at ht
    rw [← ht.1]
    simp
  | case2 acc rest ih =>
    intro t ht
    simp only [splitEolGo, List.cons.injEq] at ht
    exact absurd ht.2 (splitEolGo_ne_nil [] rest)
  | case3 acc rest hno ih =>
    intro t ht
    have hh : rest.head? ≠ some '\n' := by
      cases rest with
      | nil => simp
      | cons c r2 =>
        simp only [List.head?_cons, ne_eq, Option.some.injEq]
        intro hc
        exact hno r2 (by rw [hc])
    rw [splitEolGo_cr acc rest hh] at ht
    simp only [List.cons.injEq] at ht
    exact absurd ht.2 (splitEolGo_ne_nil [] rest)
  | case4 acc rest ih =>
    intro t ht
    simp only [splitEolGo, List.cons.injEq] at ht
    exact absurd ht.2 (splitEolGo_ne_nil [] rest)
  | case5 acc c rest h1 h2 h3 ih =>
    intro t ht
    have hc1 : c ≠ '\r' := fun hh => h2 hh
    have hc2 : c ≠ '\n' := fun hh => h3 hh
    rw [splitEolGo_cons_other acc c rest hc1 hc2] at ht
    have := ih t ht
    simp at this
    omega

theorem splitEol_singleton_ne_nil (content : Str) (hc : content ≠ []) (t : Str)
    (h : splitEol content = [t]) : t ≠ [] := by
  cases content with
  | nil => exact absurd rfl hc
  | cons c rest =>
    by_cases h1 : c = '\r'
    · subst h1
      cases rest with
      | nil =>
        simp [splitEol, splitEolGo] at h
      | cons c2 rest2 =>
        by_cases h2 : c2 = '\n'
        · subst h2
          simp only [splitEol, splitEolGo, List.cons.injEq] at h
          exact absurd h.2 (splitEolGo_ne_nil [] rest2)
        · rw [splitEol, splitEolGo_cr [] (c2 :: rest2) (by simpa using h2)] at h
          simp only [List.cons.injEq] at h
          exact absurd h.2 (splitEolGo_ne_nil [] (c2 :: rest2))
    · by_cases h2 : c = '\n'
      · subst h2
        simp only [splitEol, splitEolGo, List.cons.injEq] at h
        exact absurd h.2 (splitEolGo_ne_nil [] rest)
      · rw [splitEol, splitEolGo_cons_other [] c rest h1 h2] at h
        have := splitEolGo_singleton_length [c] rest t h
        simp at this
        intro hnil
        rw [hnil] at this
        simp at this

theorem splitEol_eolFree_self (t : Str) (h : eolFree t) : splitEol t = [t] := by
  have := splitEolGo_append_eolFree t h [] []
  simpa [splitEol, splitEolGo] using this

theorem joinSep_head_ne_lf : ∀ (ts : List Str), (∀ t ∈ ts, eolFree t) →
    (joinSep crSep ts).head? ≠ some '\n' := by
  intro ts hfree
  cases ts with
  | nil => simp [joinSep]
  | cons t rest =>
    cases rest with
    | nil =>
      cases t with
      | nil => simp [joinSep]
      | cons c t2 =>
        have := (hfree (c :: t2) (by simp)) c (by simp)
        simp [joinSep, this.2]
    | cons t2 rest2 =>
      cases t with
      | nil => simp [joinSep, crSep]
      | cons c t3 =>
        have := (hfree (c :: t3) (by simp)) c (by simp)
        simp [joinSep, this.2]

theorem splitEol_joinSep (sep : Str)
    (hsep : sep = lfSep ∨ sep = crlfSep ∨ sep = crSep) :
    ∀ ts : List Str, ts ≠ [] → (∀ t ∈ ts, eolFree t) →
      splitEol (joinSep sep ts) = ts := by
  intro ts
  induction ts with
  | nil => intro h; exact absurd rfl h
  | cons t rest ih =>
    intro _ hfree
    cases rest with
    | nil =>
      simp only [joinSep]
      exact splitEol_eolFree_self t (hfree t (by simp))
    | cons t2 rest2 =>
      have hj : joinSep sep (t :: t2 :: rest2) = t ++ (sep ++ joinSep sep (t2 :: rest2)) := by
        simp [joinSep]
      have hfree2 : ∀ u ∈ (t2 :: rest2), eolFree u := fun u hu => hfree u (by simp [hu])
      have hrest := ih (by simp) hfree2
      rw [hj, splitEol, splitEolGo_append_eolFree t (hfree t (by simp))]
      rcases hsep with h | h | h <;> subst h
      · show splitEolGo (t.reverse ++ []) ('\n' :: joinSep lfSep (t2 :: rest2)) = _
        simp only [splitEolGo]
        rw [List.append_nil, List.reverse_reverse]
        rw [show splitEolGo [] (joinSep lfSep (t2 :: rest2)) = splitEol (joinSep lfSep (t2 :: rest2)) from rfl]
        rw [hrest]
      · show splitEolGo (t.reverse ++ []) ('\r' :: '\n' :: joinSep crlfSep (t2 :: rest2)) = _
        simp only [splitEolGo]
        rw [List.append_nil, List.reverse_reverse]
        rw [show splitEolGo [] (joinSep crlfSep (t2 :: rest2)) = splitEol (joinSep crlfSep (t2 :: rest2)) from rfl]
        rw [hrest]
      · show splitEolGo (t.reverse ++ []) ('\r' :: joinSep crSep (t2 :: rest2)) = _
        rw [splitEolGo_cr _ _ (joinSep_head_ne_lf (t2 :: rest2) hfree2)]
        rw [List.append_nil, List.reverse_reverse]
        rw [show splitEolGo [] (joinSep crSep (t2 :: rest2)) = splitEol (joinSep crSep (t2 :: rest2)) from rfl]
        rw [hrest]

/-- Claim C6: for any content, joining the parsed line texts with any of
the three EOL separators and re-parsing yields exactly the same line
texts. -/
theorem parseLines_join_roundtrip (content sep : Str)
    (hsep : sep = lfSep ∨ sep = crlfSep ∨ sep = crSep) :
    (parseLines (joinSep sep ((parseLines content).map LineInfo.text))).map LineInfo.text
      = (parseLines content).map LineInfo.text := by
  by_cases hc : content = []
  · subst hc
    simp [parseLines, joinSep]
  · have htexts : (parseLines content).map LineInfo.text = splitEol content := by
      simp [parseLines, hc, numberFrom_map_text]
    rw [htexts]
    have hne : splitEol content ≠ [] := splitEolGo_ne_nil [] content
    have hfree : ∀ t ∈ splitEol content, eolFree t :=
      splitEolGo_eolFree [] content (by simp)
    have hsep_ne : sep ≠ [] := by
      rcases hsep with h | h | h <;> simp [h, lfSep, crlfSep, crSep]
    have hjoin_ne : joinSep sep (splitEol content) ≠ [] := by
      cases hsplit : splitEol content with
      | nil => exact absurd hsplit hne
      | cons t rest =>
        cases rest with
        | nil =>
          have ht : t ≠ [] := splitEol_singleton_ne_nil content hc t hsplit
          simpa [joinSep] using ht
        | cons t2 rest2 =>
          simp [joinSep, hsep_ne]
    rw [parseLines, if_neg hjoin_ne, numberFrom_map_text]
    exact splitEol_joinSep sep hsep (splitEol content) hne hfree

theorem parseLines_join_roundtrip_witness :
    (parseLines (joinSep lfSep
        ((parseLines ['a', '\r', '\n', 'b']).map LineInfo.text))).map LineInfo.text
      = (parseLines ['a', '\r', '\n', 'b']).map LineInfo.text :=
  parseLines_join_roundtrip _ _ (Or.inl rfl)
